import Mathlib

/-!
Verification development for `mermaidomatic.py`, a single-file Python tool that
validates an input path, parses a Python source file, walks the resulting
`ast` tree to extract a call graph, serializes it as Mermaid markup, and wraps
the markup in a Markdown report.

The shallow embedding below translates each function of the source file into a
Lean definition of the same name.  Python's `ast` node language is modelled by
the inductive `Node`, restricted to the node kinds the tool's logic can
distinguish (plus a few representative bystander kinds such as `assign` and
`binop`); `ast.walk`'s breadth-first traversal is modelled by `walk`.
-/

set_option linter.unusedVariables false

deriving instance DecidableEq for Except

namespace Mermaidomatic

/-- Python values that occur as `ast.Constant` payloads and hence as elements of
the `params_passed` argument-descriptor lists built by `analyze_ast` (source
lines 46-49).  A descriptor is a genuine Python object there: a `str` for a
`Name` argument or for the "other syntactic kind" label, but the raw constant
value (possibly a non-string such as an `int`) for a `Constant` argument. -/
inductive PyVal where
  | str (s : String)
  | int (n : Int)
  | bool (b : Bool)
  | pynone
deriving Repr, DecidableEq

/-- The fragment of Python's `ast` node language relevant to `mermaidomatic.py`.
The tool's logic reacts only to `FunctionDef`, `Return`, `For`, `While`, `Call`,
`Name` and `Constant` nodes; `Module`, `Expr` (expression statement), `Assign`,
`BinOp` and `Pass` are included as representative enclosing/bystander node
kinds so that breadth-first traversal order is modelled faithfully.  Child
lists follow the field order of the corresponding Python `ast` classes.
Function parameters are modelled as their names (the `arg.arg` strings used at
source line 36); default values are not part of the modelled fragment, so the
`arguments` subtree contains no further analyzable nodes and is not walked. -/
inductive Node where
  | module (body : List Node)
  | functionDef (nm : String) (params : List String) (body : List Node)
  | ret (value : Option Node)
  | forLoop (target : Node) (iter : Node) (body : List Node)
  | whileLoop (test : Node) (body : List Node)
  | exprStmt (value : Node)
  | assign (target : Node) (value : Node)
  | call (func : Node) (args : List Node)
  | name (id : String)
  | const (value : PyVal)
  | binop (left : Node) (right : Node)
  | passStmt

/-- `type(node).__name__` for the modelled node kinds: the Python class name. -/
def Node.typeName : Node → String
  | .module _ => "Module"
  | .functionDef _ _ _ => "FunctionDef"
  | .ret _ => "Return"
  | .forLoop _ _ _ => "For"
  | .whileLoop _ _ => "While"
  | .exprStmt _ => "Expr"
  | .assign _ _ => "Assign"
  | .call _ _ => "Call"
  | .name _ => "Name"
  | .const _ => "Constant"
  | .binop _ _ => "BinOp"
  | .passStmt => "Pass"

/-- `ast.iter_child_nodes`: the direct child AST nodes, in field order.
(`BinOp.op` operator nodes and the `arguments` subtree of a `FunctionDef`
carry no analyzable nodes in the modelled fragment and are omitted.) -/
def Node.children : Node → List Node
  | .module body => body
  | .functionDef _ _ body => body
  | .ret value => value.toList
  | .forLoop target iter body => target :: iter :: body
  | .whileLoop test body => test :: body
  | .exprStmt value => [value]
  | .assign target value => [target, value]
  | .call func args => func :: args
  | .name _ => []
  | .const _ => []
  | .binop left right => [left, right]
  | .passStmt => []

mutual

/-- The number of `ast` nodes in the modelled tree rooted at `n` (counting the
omitted bystander subtrees as absent).  Used as traversal fuel for `walk`. -/
def nodeSize : Node → Nat
  | .module body => 1 + nodeSizeList body
  | .functionDef _ _ body => 1 + nodeSizeList body
  | .ret (some v) => 1 + nodeSize v
  | .ret none => 1
  | .forLoop target iter body => 1 + nodeSize target + nodeSize iter + nodeSizeList body
  | .whileLoop test body => 1 + nodeSize test + nodeSizeList body
  | .exprStmt value => 1 + nodeSize value
  | .assign target value => 1 + nodeSize target + nodeSize value
  | .call func args => 1 + nodeSize func + nodeSizeList args
  | .name _ => 1
  | .const _ => 1
  | .binop left right => 1 + nodeSize left + nodeSize right
  | .passStmt => 1

/-- The total number of nodes among the trees in a list. -/
def nodeSizeList : List Node → Nat
  | [] => 0
  | n :: rest => nodeSize n + nodeSizeList rest

end

/-- Fuel measure for the breadth-first traversal queue: the total number of
nodes reachable from the queue, which is exactly the number of nodes the
traversal still has to yield. -/
def fuelList (q : List Node) : Nat := nodeSizeList q

/-- Queue worker for `walk`.  `ast.walk` pops a node from the front of a deque,
pushes its children at the back, and yields the popped node.  The fuel argument
only serves to make the recursion structural: the lemma `walkAux_fuel_irrel` in
the lemma section proves that any fuel of at least `fuelList q` yields the same
traversal, and `walkAux_length` that this traversal is complete (it yields
exactly `fuelList q` nodes, one per node reachable from the queue). -/
def walkAux : Nat → List Node → List Node
  | 0, _ => []
  | _ + 1, [] => []
  | fuel + 1, n :: q => n :: walkAux fuel (q ++ n.children)

/-- `ast.walk(n)`: all nodes of the tree rooted at `n` in breadth-first order,
starting with `n` itself. -/
def walk (n : Node) : List Node := walkAux (nodeSize n) [n]

/-- Split a character list at every occurrence of the separator character:
always at least one (possibly empty) piece, one extra piece per occurrence
(Python `str.split(sep)` for a one-character separator). -/
def splitChar (sep : Char) : List Char → List (List Char)
  | [] => [[]]
  | c :: cs =>
    match splitChar sep cs with
    | [] => [[c]]
    | h :: t => if c = sep then [] :: h :: t else (c :: h) :: t

/-- Python `s.split('\n')` on strings. -/
def splitLines (s : String) : List String := (splitChar '\n' s.data).map String.mk

/-- Python `s.endswith(suffix)`. -/
def pyEndsWith (s suffix : String) : Bool := suffix.data.isSuffixOf s.data

/-- Python `s.startswith(p)`. -/
def pyStartsWith (s p : String) : Bool := p.data.isPrefixOf s.data

/-- `inspect.cleandoc`'s `str.expandtabs` helper, character by character:
a tab advances the column to the next multiple of 8; newline and carriage
return reset the column. -/
def pyExpandTabsAux : List Char → Nat → List Char
  | [], _ => []
  | c :: cs, col =>
    if c = '\t' then
      let pad := 8 - col % 8
      List.replicate pad ' ' ++ pyExpandTabsAux cs (col + pad)
    else if c = '\n' ∨ c = '\r' then c :: pyExpandTabsAux cs 0
    else c :: pyExpandTabsAux cs (col + 1)

/-- Python `str.expandtabs()` with the default tab size of 8. -/
def pyExpandTabs (s : String) : String := String.mk (pyExpandTabsAux s.data 0)

/-- The whitespace characters stripped by Python's `str.lstrip()`. -/
def pyIsSpace (c : Char) : Bool :=
  c == ' ' || c == '\t' || c == '\n' || c == '\r' || c == '\x0b' || c == '\x0c'

/-- Python `str.lstrip()` (strip leading whitespace). -/
def pyLstrip (s : String) : String := String.mk (s.data.dropWhile pyIsSpace)

/-- Drop trailing empty strings from a list of lines (`while lines and not
lines[-1]: lines.pop()`). -/
def dropTrailingEmpty (lines : List String) : List String :=
  ((lines.reverse).dropWhile (fun l => l == "")).reverse

/-- `inspect.cleandoc`: expand tabs, split into lines, strip the first line's
leading whitespace, remove the smallest common indentation margin of the
remaining non-blank lines, and drop leading and trailing blank lines. -/
def cleandoc (doc : String) : String :=
  let lines := splitLines (pyExpandTabs doc)
  let margins := (lines.drop 1).filterMap (fun line =>
    let content := (line.data.dropWhile pyIsSpace).length
    if content = 0 then none else some (line.length - content))
  let lines :=
    match lines with
    | [] => []
    | first :: rest =>
      match margins.min? with
      | Option.none => pyLstrip first :: rest
      | some margin => pyLstrip first :: rest.map (fun l => String.mk (l.data.drop margin))
  let lines := dropTrailingEmpty lines
  let lines := lines.dropWhile (fun l => l == "")
  String.intercalate "\n" lines

/-- `ast.get_docstring(node, clean=True)` for a node with the given statement
body: the cleaned string if the first statement is a standalone string
constant, otherwise `None`. -/
def getDocstring (body : List Node) : Option String :=
  match body with
  | Node.exprStmt (Node.const (PyVal.str s)) :: _ => some (cleandoc s)
  | _ => none

/-- The per-function metadata record stored in `function_details`
(source lines 35-39). -/
structure FuncDetails where
  params : List String
  returns : String
  docstring : Option String
deriving Repr, DecidableEq

/-- One entry of a `function_calls` list (source line 50): the tuple
`(sub_node.func.id, in_loop, params_passed)`. -/
abbrev Edge := String × Bool × List PyVal

/-- The triple returned by `analyze_ast` (source line 52).  The Python dicts
`function_calls` and `function_details` are modelled as insertion-ordered
association lists, matching CPython dict semantics. -/
structure AnalysisResult where
  analysis : List String
  function_calls : List (String × List Edge)
  function_details : List (String × FuncDetails)
deriving Repr, DecidableEq

/-- Python dict lookup `m[k]` (first — and in a dict, only — binding wins). -/
def lookupKey {α : Type} : List (String × α) → String → Option α
  | [], _ => none
  | (k, v) :: rest, k2 => if k = k2 then some v else lookupKey rest k2

/-- Python dict assignment `m[k] = v`: overwrite in place (keeping the key's
original insertion position), or append a new binding at the end. -/
def dictSet {α : Type} : List (String × α) → String → α → List (String × α)
  | [], k, v => [(k, v)]
  | (k2, v2) :: rest, k, v =>
    if k2 = k then (k2, v) :: rest else (k2, v2) :: dictSet rest k v

/-- `defaultdict(list)` append `m[k].append(e)`: extend the existing binding in
place, or create a new binding `[e]` at the end. -/
def dictAppend (m : List (String × List Edge)) (k : String) (e : Edge) : List (String × List Edge) :=
  match m with
  | [] => [(k, [e])]
  | (k2, es) :: rest =>
    if k2 = k then (k2, es ++ [e]) :: rest else (k2, es) :: dictAppend rest k e

/-- The list of edges recorded under caller `k` (empty when `k` has none). -/
def lookupEdges (m : List (String × List Edge)) (k : String) : List Edge :=
  (lookupKey m k).getD []

/-- Source lines 29-33: the distinct `type(sub_node.value).__name__` strings of
the valued `return` statements found anywhere in `ast.walk(node)`.  Python
collects them in a `set`; this definition fixes the set's *contents* as a
deduplicated list in first-insertion order.  The unspecified *iteration* order
of the Python set is supplied separately (the `setOrder` parameter of
`analyze_ast`). -/
def returnCats (n : Node) : List String :=
  (walk n).foldl
    (fun acc sub =>
      match sub with
      | Node.ret (some v) => if acc.contains v.typeName then acc else acc ++ [v.typeName]
      | _ => acc)
    []

/-- Source lines 46-49: the descriptor recorded for one call argument —
`arg.id if isinstance(arg, ast.Name) else arg.value if isinstance(arg,
ast.Constant) else type(arg).__name__`. -/
def argDescriptor (a : Node) : PyVal :=
  match a with
  | Node.name id => PyVal.str id
  | Node.const v => v
  | _ => PyVal.str a.typeName

/-- Whether a node is a loop construct (`ast.For` or `ast.While`), tested at
source line 43. -/
def isLoopNode : Node → Bool
  | Node.forLoop _ _ _ => true
  | Node.whileLoop _ _ => true
  | _ => false

/-- One iteration of the inner loop at source lines 42-50, threading the
`in_loop` flag and the list of recorded edges.  Note that the flag is set when
a loop node is seen and never reset, exactly as in the source. -/
def collectCallsStep (names : List String) (st : Bool × List Edge) (sub : Node) :
    Bool × List Edge :=
  let in_loop := st.1 || isLoopNode sub
  match sub with
  | Node.call (Node.name id) args =>
    if names.contains id then (in_loop, st.2 ++ [(id, in_loop, args.map argDescriptor)])
    else (in_loop, st.2)
  | _ => (in_loop, st.2)

/-- The inner loop at source lines 41-50: walk the function node again with
`in_loop = False` initially, recording an edge for every call whose target is
a plain name contained in `names` (the running `analysis` list). -/
def collectCalls (names : List String) (n : Node) : List Edge :=
  ((walk n).foldl (collectCallsStep names) (false, [])).2

/-- The `function_details[node.name]` record built at source lines 35-39.
`setOrder` models the unspecified iteration order of the Python `set`
`return_types` when it is joined at line 37: it is a function producing the
order in which the set's elements are enumerated, and a faithful instantiation
is any function mapping each list to a permutation of itself. -/
def funcDetailsOf (setOrder : List String → List String) (n : Node) : FuncDetails :=
  match n with
  | Node.functionDef _ ps body =>
    ⟨ps,
     if returnCats n = [] then "None"
     else String.intercalate ", " (setOrder (returnCats n)),
     getDocstring body⟩
  | _ => ⟨[], "", none⟩

/-- The body of the outer loop at source lines 26-50 for a single walked node:
a `FunctionDef` appends its name to `analysis`, (re)assigns its
`function_details` record, and appends to `function_calls` one edge per
matching call found in its sub-walk; every other node kind is skipped. -/
def analyzeStep (setOrder : List String → List String) (st : AnalysisResult) (n : Node) :
    AnalysisResult :=
  match n with
  | Node.functionDef nm _ _ =>
    let analysis := st.analysis ++ [nm]
    let function_details := dictSet st.function_details nm (funcDetailsOf setOrder n)
    let function_calls :=
      (collectCalls analysis n).foldl (fun m e => dictAppend m nm e) st.function_calls
    ⟨analysis, function_calls, function_details⟩
  | _ => st

/-- `analyze_ast` (source lines 23-52): fold the per-node step over the
breadth-first walk of the whole tree, starting from empty accumulators. -/
def analyze_ast (setOrder : List String → List String) (ast_tree : Node) : AnalysisResult :=
  (walk ast_tree).foldl (analyzeStep setOrder) ⟨[], [], []⟩

/-- Python `', '.join(vals)` over a list of arbitrary Python objects:
succeeds with the joined string when every element is a `str`, and raises
`TypeError` otherwise (as `str.join` does). -/
def pyJoin (sep : String) (vals : List PyVal) : Except String String :=
  if vals.all (fun v => match v with | PyVal.str _ => true | _ => false) then
    Except.ok (String.intercalate sep (vals.map (fun v => match v with | PyVal.str s => s | _ => "")))
  else Except.error "TypeError: sequence item: expected str instance"

/-- The `RETURNS` field text emitted at source line 60:
`details['returns'] if details['returns'] else 'None'` (an empty string is
falsy in Python). -/
def returns_field (d : FuncDetails) : String :=
  if d.returns = "" then "None" else d.returns

/-- The `DOC` field text emitted at source line 61:
`details['docstring'] if details['docstring'] else 'None'` (both `None` and
the empty string are falsy). -/
def doc_field (d : FuncDetails) : String :=
  match d.docstring with
  | some s => if s = "" then "None" else s
  | none => "None"

/-- The node-declaration line built for one function at source lines 58-62,
given its `function_details` record.  The `\n` sequences inside the `PARAMS`,
`RETURNS` and `DOC` separators are literal backslash-n characters in the
source's f-strings (escaped backslashes), not newlines. -/
def node_line_str (d : FuncDetails) (func : String) : String :=
  func ++ "(" ++ func
    ++ "\\n\\nPARAMS: " ++ String.intercalate ", " d.params
    ++ "\\n\\nRETURNS: " ++ returns_field d
    ++ "\\n\\nDOC: " ++ doc_field d
    ++ ")\n"

/-- The node-declaration line including the dictionary access
`function_details[func]` of source line 58.  `function_details` is a
`defaultdict(dict)` in the source, so a missing key would yield an empty dict
and the subsequent `details['params']` would raise `KeyError`; `analyze_ast`
in fact records a details entry for every name it appends to `analysis`. -/
def node_line (function_details : List (String × FuncDetails)) (func : String) :
    Except String String :=
  match lookupKey function_details func with
  | some d => Except.ok (node_line_str d func)
  | none => Except.error "KeyError"

/-- Total variant of `node_line` used to state the serializer's shape: the
node line of a name whose details record is present, and the empty string for
a missing record (a case `analyze_ast` never produces for names it emitted). -/
def node_line_total (function_details : List (String × FuncDetails)) (func : String) : String :=
  match lookupKey function_details func with
  | some d => node_line_str d func
  | none => ""

/-- Concatenation of a list of strings, in order. -/
def strConcat : List String → String
  | [] => ""
  | s :: rest => s ++ strConcat rest

/-- The edge line built at source lines 65-67 for one recorded call tuple
`(call, in_loop, params_passed)` of caller `func`: the label joins the
argument descriptors with `', '.join`, which raises when a descriptor is not
a string. -/
def edge_line (func : String) (e : Edge) : Except String String :=
  match pyJoin ", " e.2.2 with
  | Except.ok joined =>
    Except.ok (func ++ "-->|\""
      ++ ((if e.2.1 then "in_loop" else "calls") ++ " params: " ++ joined)
      ++ "\"|" ++ e.1 ++ ";\n")
  | Except.error m => Except.error m

/-- The node-declaration loop of source lines 57-62, starting from the header
written at line 55, accumulating onto the growing output string. -/
def nodes_section (function_details : List (String × FuncDetails)) (analysis : List String) :
    Except String String :=
  analysis.foldlM
    (fun acc func => (node_line function_details func).map (fun l => acc ++ l))
    "```mermaid\ngraph TD;\n"

/-- The edge loop of source lines 64-67, accumulating onto the output built so
far.  A raised `TypeError` propagates out of the whole serializer. -/
def edges_section (function_calls : List (String × List Edge)) (start : String) :
    Except String String :=
  function_calls.foldlM
    (fun acc kv => kv.2.foldlM (fun acc2 e => (edge_line kv.1 e).map (fun l => acc2 ++ l)) acc)
    start

/-- `generate_mermaid_syntax` (source lines 54-69): header, one node line per
entry of `analysis`, one edge line per recorded call, closing fence.  The
result is `Except`-valued because Python's `', '.join` raises `TypeError` on
non-string argument descriptors. -/
def generate_mermaid_syntax (analysis : List String)
    (function_calls : List (String × List Edge))
    (function_details : List (String × FuncDetails)) : Except String String :=
  match nodes_section function_details analysis with
  | Except.error m => Except.error m
  | Except.ok s1 =>
    match edges_section function_calls s1 with
    | Except.error m => Except.error m
    | Except.ok s2 => Except.ok (s2 ++ "```")

/-- `os.path.basename`: the final path component. -/
def basename (p : String) : String :=
  (((splitChar '/' p.data).map String.mk).getLast?).getD ""

/-- `write_to_markdown` (source lines 71-75), as the text written to the
output file.  The wall-clock timestamp string captured at line 72 is passed in
as `current_time`. -/
def write_to_markdown (content : String) (file_path : String) (current_time : String) : String :=
  "# Generated Mermaid.js Diagram\n\n**File Name:** " ++ basename file_path ++ "\n"
    ++ "**Date and Time of Diagram Generation:** " ++ current_time ++ "\n\n" ++ content

/-- The `Union[bool, str]` result of `validate_file_path`: Python's `True`, or
an error-message string.  `main` tests the result with `is not True`, so the
two constructors capture exactly the distinction it observes. -/
inductive ValidationResult where
  | ok
  | err (msg : String)
deriving Repr, DecidableEq

/-- `validate_file_path` (source lines 12-17).  The read-only
`os.path.exists` probe is abstracted as the boolean `file_exists`. -/
def validate_file_path (file_exists : Bool) (file_path : String) : ValidationResult :=
  if !file_exists then ValidationResult.err "File does not exist."
  else if !(pyEndsWith file_path ".py") then ValidationResult.err "Not a Python file."
  else ValidationResult.ok

/-- The observable outcome of one `main` run: an early return after a logged
validation error (no output file touched), an uncaught exception propagating
out of the pipeline (no output file written, since writing happens last), or a
successful run writing `content` to `output_path`. -/
inductive RunOutcome where
  | earlyExit (logged : String)
  | raised (msg : String)
  | success (output_path : String) (content : String)
deriving Repr, DecidableEq

/-- `main` (source lines 77-92).  `parse_python_file` reads and parses the
input file; it is an external capability abstracted by the already-parsed
`parsed` tree (a malformed file would raise `SyntaxError` before
`analyze_ast` runs, which no claim here exercises).  `setOrder` and
`current_time` abstract the set-iteration order and the wall clock. -/
def main (setOrder : List String → List String) (file_exists : Bool) (parsed : Node)
    (current_time : String) (file_path output_path : String) : RunOutcome :=
  match validate_file_path file_exists file_path with
  | ValidationResult.err msg => RunOutcome.earlyExit ("Validation failed: " ++ msg)
  | ValidationResult.ok =>
    let r := analyze_ast setOrder parsed
    match generate_mermaid_syntax r.analysis r.function_calls r.function_details with
    | Except.error m => RunOutcome.raised m
    | Except.ok mermaid =>
      RunOutcome.success output_path (write_to_markdown mermaid file_path current_time)

/-- Analysis followed by serialization on an already-parsed tree: the Mermaid
block text produced for one source unit. -/
def pipelineE (setOrder : List String → List String) (t : Node) : Except String String :=
  let r := analyze_ast setOrder t
  generate_mermaid_syntax r.analysis r.function_calls r.function_details

/-- The full output document of a run with the generation instant held fixed:
the Mermaid block wrapped by `write_to_markdown` with the given timestamp
string. -/
def pipeline_doc (setOrder : List String → List String) (t : Node)
    (file_path current_time : String) : Except String String :=
  (pipelineE setOrder t).map (fun s => write_to_markdown s file_path current_time)

/-- The identity set-iteration order: elements enumerated in first-insertion
order.  A valid instantiation of `setOrder` (it permutes its input). -/
def idOrder : List String → List String := fun l => l

/-- The reversed set-iteration order: another valid instantiation of
`setOrder` (it permutes its input). -/
def revOrder : List String → List String := fun l => l.reverse

/-- `n` is (some occurrence of) a function definition with name `nm`. -/
def isFnDefNamed (nm : String) (n : Node) : Bool :=
  match n with
  | Node.functionDef nm2 _ _ => nm2 == nm
  | _ => false

/-- The name of a function-definition node, `none` for any other node kind. -/
def fnName : Node → Option String
  | Node.functionDef nm _ _ => some nm
  | _ => none

/-- The last function-definition node with name `nm` in a list of nodes. -/
def lastFnDef (nm : String) : List Node → Option Node
  | [] => none
  | n :: rest =>
    match lastFnDef nm rest with
    | some m => some m
    | none => if isFnDefNamed nm n then some n else none

/-- The analyzer state reached after processing the first `i` nodes of the
breadth-first walk of `t`: the "running" accumulators of `analyze_ast` at the
moment the `i`-th walked node is about to be visited. -/
def stateAt (setOrder : List String → List String) (t : Node) (i : Nat) : AnalysisResult :=
  ((walk t).take i).foldl (analyzeStep setOrder) ⟨[], [], []⟩

/-- The number of node-declaration lines for name `nm` in a serialized output:
lines of the form `nm(...)`.  Edge lines start with `caller-->` and the header
and fence lines carry no `(`, so on the serializer's output this counts
exactly the node declarations for `nm`. -/
def node_decl_count (out : String) (nm : String) : Nat :=
  ((splitLines out).filter (fun line => pyStartsWith line (nm ++ "("))).length

/-- A node is either not a function definition, or a function definition with
at most one distinct return-value category (so its Python set `return_types`,
joined at source line 37, has at most one element and its iteration order
cannot matter).  Nodes other than function definitions are unconstrained. -/
def fnCatsSmall (n : Node) : Bool :=
  match n with
  | Node.functionDef _ _ _ => (returnCats n).length ≤ 1
  | _ => true

/-- Every function definition in the tree — and only the function
definitions, other node kinds are unconstrained — has at most one distinct
return-value category. -/
def retCatsSmall (t : Node) : Bool :=
  (walk t).all fnCatsSmall

/-- The parsed tree of
`def g(): pass` followed by
`def f():` with body `for i in xs: pass` and then the call statement `g()` —
the call site is a sibling *after* the loop, not inside it. -/
def tree_loop_then_call : Node := Node.module [
  Node.functionDef "g" [] [Node.passStmt],
  Node.functionDef "f" [] [
    Node.forLoop (Node.name "i") (Node.name "xs") [Node.passStmt],
    Node.exprStmt (Node.call (Node.name "g") [])]]

/-- The parsed tree of `def f(x):` with body `return 1` then `return x`:
two distinct return-value categories (`Constant` and `Name`). -/
def tree_two_return_cats : Node := Node.module [
  Node.functionDef "f" ["x"] [
    Node.ret (some (Node.const (PyVal.int 1))),
    Node.ret (some (Node.name "x"))]]

/-- The parsed tree of `def f(x): return x` followed by `def g(): f(1)`:
a call edge whose single argument descriptor is the integer `1`. -/
def tree_int_arg : Node := Node.module [
  Node.functionDef "f" ["x"] [Node.ret (some (Node.name "x"))],
  Node.functionDef "g" [] [
    Node.exprStmt (Node.call (Node.name "f") [Node.const (PyVal.int 1)])]]

/-- The parsed tree of `def f(x): pass` followed by `def f(y): pass`:
the same name defined twice. -/
def tree_redefined : Node := Node.module [
  Node.functionDef "f" ["x"] [Node.passStmt],
  Node.functionDef "f" ["y"] [Node.passStmt]]

/-- The parsed tree of `def f(): g()` where `g` is never defined in the unit. -/
def tree_unknown_callee : Node := Node.module [
  Node.functionDef "f" [] [Node.exprStmt (Node.call (Node.name "g") [])]]

/-- The parsed tree of `def f(): return` — a bare return carrying no value. -/
def tree_bare_return : Node := Node.module [
  Node.functionDef "f" [] [Node.ret none]]

/-- The parsed tree of `def f(): f()` — a directly recursive function. -/
def tree_self_call : Node := Node.module [
  Node.functionDef "f" [] [Node.exprStmt (Node.call (Node.name "f") [])]]

/-- The parsed tree of the spec's concrete scenario:
`def helper(x): return x` and `def main(n): for i in range(n): helper(n)`. -/
def tree_helper_main : Node := Node.module [
  Node.functionDef "helper" ["x"] [Node.ret (some (Node.name "x"))],
  Node.functionDef "main" ["n"] [
    Node.forLoop (Node.name "i") (Node.call (Node.name "range") [Node.name "n"]) [
      Node.exprStmt (Node.call (Node.name "helper") [Node.name "n"])]]]

/-- The parsed tree of `def outer():` whose body defines `def inner(): pass`
and then calls `inner()` — a nested function definition. -/
def tree_nested_def : Node := Node.module [
  Node.functionDef "outer" [] [
    Node.functionDef "inner" [] [Node.passStmt],
    Node.exprStmt (Node.call (Node.name "inner") [])]]

/-! ### Traversal fuel adequacy -/

theorem nodeSize_pos (n : Node) : 1 ≤ nodeSize n := by
  cases n with
  | ret v => cases v <;> simp only [nodeSize] <;> omega
  | module body => simp only [nodeSize]; omega
  | functionDef nm ps body => simp only [nodeSize]; omega
  | forLoop a b c => simp only [nodeSize]; omega
  | whileLoop a b => simp only [nodeSize]; omega
  | exprStmt a => simp only [nodeSize]; omega
  | assign a b => simp only [nodeSize]; omega
  | call a b => simp only [nodeSize]; omega
  | name a => simp only [nodeSize]; omega
  | const a => simp only [nodeSize]; omega
  | binop a b => simp only [nodeSize]; omega
  | passStmt => simp only [nodeSize]; omega

theorem nodeSizeList_append (a b : List Node) :
    nodeSizeList (a ++ b) = nodeSizeList a + nodeSizeList b := by
  induction a with
  | nil => simp [nodeSizeList]
  | cons n rest ih =>
    show nodeSize n + nodeSizeList (rest ++ b) = nodeSize n + nodeSizeList rest + nodeSizeList b
    rw [ih]
    omega

theorem nodeSize_children (n : Node) : nodeSize n = 1 + nodeSizeList n.children := by
  cases n with
  | ret v => cases v <;> simp [nodeSize, Node.children, nodeSizeList]
  | module body => simp only [nodeSize, Node.children]
  | functionDef nm ps body => simp only [nodeSize, Node.children]
  | forLoop a b c => simp only [nodeSize, Node.children, nodeSizeList]; omega
  | whileLoop a b => simp only [nodeSize, Node.children, nodeSizeList]; omega
  | exprStmt a => simp only [nodeSize, Node.children, nodeSizeList]; omega
  | assign a b => simp only [nodeSize, Node.children, nodeSizeList]; omega
  | call a b => simp only [nodeSize, Node.children, nodeSizeList]; omega
  | name a => simp only [nodeSize, Node.children, nodeSizeList]
  | const a => simp only [nodeSize, Node.children, nodeSizeList]
  | binop a b => simp only [nodeSize, Node.children, nodeSizeList]; omega
  | passStmt => simp only [nodeSize, Node.children, nodeSizeList]

theorem walkAux_nil (fuel : Nat) : walkAux fuel [] = [] := by
  cases fuel <;> rfl

/-- The fuel only makes the recursion structural: any two fuels that cover the
queue's total node count produce the same traversal. -/
theorem walkAux_fuel_irrel (f1 : Nat) : ∀ (q : List Node) (f2 : Nat),
    fuelList q ≤ f1 → fuelList q ≤ f2 → walkAux f1 q = walkAux f2 q := by
  induction f1 with
  | zero =>
    intro q f2 h1 h2
    cases q with
    | nil => rw [walkAux_nil, walkAux_nil]
    | cons n q2 =>
      exfalso
      have hp := nodeSize_pos n
      simp only [fuelList, nodeSizeList] at h1
      omega
  | succ f1b ih =>
    intro q f2 h1 h2
    cases q with
    | nil => rw [walkAux_nil, walkAux_nil]
    | cons n q2 =>
      cases f2 with
      | zero =>
        exfalso
        have hp := nodeSize_pos n
        simp only [fuelList, nodeSizeList] at h2
        omega
      | succ f2b =>
        show n :: walkAux f1b (q2 ++ n.children) = n :: walkAux f2b (q2 ++ n.children)
        have hch := nodeSize_children n
        have h1b : fuelList (q2 ++ n.children) ≤ f1b := by
          simp only [fuelList, nodeSizeList_append]
          simp only [fuelList, nodeSizeList] at h1
          omega
        have h2b : fuelList (q2 ++ n.children) ≤ f2b := by
          simp only [fuelList, nodeSizeList_append]
          simp only [fuelList, nodeSizeList] at h2
          omega
        exact congrArg (List.cons n) (ih (q2 ++ n.children) f2b h1b h2b)

/-- With adequate fuel the traversal is complete: it yields exactly one entry
per node reachable from the queue. -/
theorem walkAux_length (f : Nat) : ∀ q : List Node, fuelList q ≤ f →
    (walkAux f q).length = fuelList q := by
  induction f with
  | zero =>
    intro q h
    cases q with
    | nil => simp [walkAux_nil, fuelList, nodeSizeList]
    | cons n q2 =>
      exfalso
      have hp := nodeSize_pos n
      simp only [fuelList, nodeSizeList] at h
      omega
  | succ fb ih =>
    intro q h
    cases q with
    | nil => simp [walkAux_nil, fuelList, nodeSizeList]
    | cons n q2 =>
      have hch := nodeSize_children n
      have hle : fuelList (q2 ++ n.children) ≤ fb := by
        simp only [fuelList, nodeSizeList_append]
        simp only [fuelList, nodeSizeList] at h
        omega
      show (n :: walkAux fb (q2 ++ n.children)).length = fuelList (n :: q2)
      rw [List.length_cons, ih (q2 ++ n.children) hle]
      simp only [fuelList, nodeSizeList_append, nodeSizeList]
      omega

/-- `walk` yields exactly one entry per node of the tree: the fuel `nodeSize n`
never truncates the breadth-first traversal. -/
theorem walk_length (n : Node) : (walk n).length = nodeSize n := by
  have h : fuelList [n] ≤ nodeSize n := by
    simp only [fuelList, nodeSizeList]
    omega
  rw [walk, walkAux_length (nodeSize n) [n] h]
  simp only [fuelList, nodeSizeList]
  omega

/-! ### Dictionary lemmas -/

theorem lookupKey_dictSet {α : Type} (m : List (String × α)) (k k2 : String) (v : α) :
    lookupKey (dictSet m k v) k2 = if k = k2 then some v else lookupKey m k2 := by
  induction m with
  | nil => simp [dictSet, lookupKey]
  | cons kv rest ih =>
    obtain ⟨k3, v3⟩ := kv
    by_cases h3 : k3 = k
    · subst h3
      by_cases h2 : k3 = k2 <;> simp [dictSet, lookupKey, h2]
    · by_cases h2 : k3 = k2
      · subst h2
        have : ¬ k = k3 := fun h => h3 h.symm
        simp [dictSet, lookupKey, h3, this]
      · simp [dictSet, lookupKey, h3, h2, ih]

theorem lookupEdges_dictAppend (m : List (String × List Edge)) (k k2 : String) (e : Edge) :
    lookupEdges (dictAppend m k e) k2
      = lookupEdges m k2 ++ (if k = k2 then [e] else []) := by
  induction m with
  | nil =>
    by_cases h2 : k = k2 <;> simp [dictAppend, lookupEdges, lookupKey, h2]
  | cons kv rest ih =>
    obtain ⟨k3, es⟩ := kv
    by_cases h3 : k3 = k
    · subst h3
      by_cases h2 : k3 = k2
      · subst h2
        simp [dictAppend, lookupEdges, lookupKey]
      · simp [dictAppend, lookupEdges, lookupKey, h2]
    · by_cases h2 : k3 = k2
      · subst h2
        have : ¬ k = k3 := fun h => h3 h.symm
        simp [dictAppend, lookupEdges, lookupKey, h3, this]
      · simp only [dictAppend, if_neg h3]
        simp only [lookupEdges, lookupKey, if_neg h2]
        simpa [lookupEdges] using ih

theorem lookupEdges_dictAppend_foldl (es : List Edge) (m : List (String × List Edge))
    (k k2 : String) :
    lookupEdges (es.foldl (fun m2 e => dictAppend m2 k e) m) k2
      = lookupEdges m k2 ++ (if k = k2 then es else []) := by
  induction es generalizing m with
  | nil => simp
  | cons e rest ih =>
    rw [List.foldl_cons, ih, lookupEdges_dictAppend]
    by_cases h2 : k = k2 <;> simp [h2]

/-! ### The `analysis` name list -/

theorem analyzeStep_analysis (setOrder : List String → List String) (st : AnalysisResult)
    (n : Node) :
    (analyzeStep setOrder st n).analysis = st.analysis ++ (fnName n).toList := by
  cases n <;> simp [analyzeStep, fnName]

theorem foldl_analysis (setOrder : List String → List String) (l : List Node)
    (st : AnalysisResult) :
    (l.foldl (analyzeStep setOrder) st).analysis = st.analysis ++ l.filterMap fnName := by
  induction l generalizing st with
  | nil => simp
  | cons n rest ih =>
    rw [List.foldl_cons, ih, analyzeStep_analysis, List.filterMap_cons]
    cases h : fnName n <;> simp [h]

/-- The final `analysis` list is exactly the names of every `FunctionDef` node
in the breadth-first walk, in walk order and with multiplicity. -/
theorem analyze_ast_analysis (setOrder : List String → List String) (t : Node) :
    (analyze_ast setOrder t).analysis = (walk t).filterMap fnName := by
  rw [analyze_ast, foldl_analysis]
  rfl

/-! ### The `function_details` mapping -/

theorem analyzeStep_details_lookup (setOrder : List String → List String)
    (st : AnalysisResult) (n : Node) (k : String) :
    lookupKey (analyzeStep setOrder st n).function_details k
      = if isFnDefNamed k n then some (funcDetailsOf setOrder n)
        else lookupKey st.function_details k := by
  cases n with
  | functionDef nm ps body =>
    rw [show (analyzeStep setOrder st (Node.functionDef nm ps body)).function_details
        = dictSet st.function_details nm (funcDetailsOf setOrder (Node.functionDef nm ps body))
      from rfl]
    rw [lookupKey_dictSet]
    by_cases h : nm = k <;> simp [isFnDefNamed, h]
  | module body => simp [analyzeStep, isFnDefNamed]
  | ret v => simp [analyzeStep, isFnDefNamed]
  | forLoop a b c => simp [analyzeStep, isFnDefNamed]
  | whileLoop a b => simp [analyzeStep, isFnDefNamed]
  | exprStmt a => simp [analyzeStep, isFnDefNamed]
  | assign a b => simp [analyzeStep, isFnDefNamed]
  | call a b => simp [analyzeStep, isFnDefNamed]
  | name a => simp [analyzeStep, isFnDefNamed]
  | const a => simp [analyzeStep, isFnDefNamed]
  | binop a b => simp [analyzeStep, isFnDefNamed]
  | passStmt => simp [analyzeStep, isFnDefNamed]

theorem foldl_details_lookup (setOrder : List String → List String) (l : List Node)
    (st : AnalysisResult) (k : String) :
    lookupKey (l.foldl (analyzeStep setOrder) st).function_details k
      = match lastFnDef k l with
        | some n => some (funcDetailsOf setOrder n)
        | none => lookupKey st.function_details k := by
  induction l generalizing st with
  | nil => simp [lastFnDef]
  | cons n rest ih =>
    rw [List.foldl_cons, ih]
    cases hrest : lastFnDef k rest with
    | some m => simp [lastFnDef, hrest]
    | none =>
      rw [analyzeStep_details_lookup]
      by_cases h : isFnDefNamed k n <;> simp [lastFnDef, hrest, h]

/-- The final `function_details` record for a name is the record of the *last*
function definition carrying that name in the walk (later definitions
overwrite earlier ones), and is absent when the name is never defined. -/
theorem analyze_ast_details_lookup (setOrder : List String → List String) (t : Node)
    (k : String) :
    lookupKey (analyze_ast setOrder t).function_details k
      = Option.map (funcDetailsOf setOrder) (lastFnDef k (walk t)) := by
  rw [analyze_ast, foldl_details_lookup]
  cases h : lastFnDef k (walk t) <;> simp [h, lookupKey]

/-! ### The `function_calls` mapping -/

theorem collectCallsStep_snd_eq (names : List String) (st : Bool × List Edge) (sub : Node) :
    (collectCallsStep names st sub).2 = st.2
    ∨ ∃ id args, sub = Node.call (Node.name id) args ∧ id ∈ names
        ∧ (collectCallsStep names st sub).2
          = st.2 ++ [(id, st.1 || isLoopNode sub, args.map argDescriptor)] := by
  cases sub <;> try exact Or.inl rfl
  case call func args =>
    cases func <;> try exact Or.inl rfl
    case name id =>
      by_cases hc : id ∈ names
      · right
        refine ⟨id, args, rfl, hc, ?_⟩
        simp [collectCallsStep, hc]
      · left
        simp [collectCallsStep, hc]

theorem collectCallsStep_mono (names : List String) (st : Bool × List Edge) (sub : Node)
    (e : Edge) (h : e ∈ st.2) : e ∈ (collectCallsStep names st sub).2 := by
  rcases collectCallsStep_snd_eq names st sub with h2 | ⟨id, args, _, _, h2⟩
  · rw [h2]; exact h
  · rw [h2]; exact List.mem_append_left _ h

theorem collectCallsStep_callee (names : List String) (st : Bool × List Edge) (sub : Node)
    (e : Edge) (h : e ∈ (collectCallsStep names st sub).2) :
    e ∈ st.2 ∨ names.contains e.1 = true := by
  rcases collectCallsStep_snd_eq names st sub with h2 | ⟨id, args, _, hid, h2⟩
  · rw [h2] at h
    exact Or.inl h
  · rw [h2] at h
    rcases List.mem_append.mp h with h3 | h3
    · exact Or.inl h3
    · right
      rw [List.mem_singleton.mp h3]
      exact List.elem_iff.mpr hid

theorem collect_foldl_mono (names : List String) (l : List Node) :
    ∀ (st : Bool × List Edge) (e : Edge), e ∈ st.2 →
      e ∈ (l.foldl (collectCallsStep names) st).2 := by
  induction l with
  | nil => exact fun st e h => h
  | cons n rest ih =>
    intro st e h
    exact ih _ e (collectCallsStep_mono names st n e h)

theorem collect_foldl_callee (names : List String) (l : List Node) :
    ∀ (st : Bool × List Edge) (e : Edge), e ∈ (l.foldl (collectCallsStep names) st).2 →
      e ∈ st.2 ∨ names.contains e.1 = true := by
  induction l with
  | nil => exact fun st e h => Or.inl h
  | cons n rest ih =>
    intro st e h
    rcases ih _ e h with h2 | h2
    · exact collectCallsStep_callee names st n e h2
    · exact Or.inr h2

theorem collect_foldl_complete (names : List String) (id : String) (args : List Node)
    (l : List Node) :
    ∀ (st : Bool × List Edge), (Node.call (Node.name id) args) ∈ l →
      names.contains id = true →
      ∃ inl, (id, inl, args.map argDescriptor) ∈ (l.foldl (collectCallsStep names) st).2 := by
  induction l with
  | nil => intro st hmem; cases hmem
  | cons n rest ih =>
    intro st hmem hid
    rcases List.mem_cons.mp hmem with heq | htail
    · subst heq
      refine ⟨st.1, collect_foldl_mono names rest _ _ ?_⟩
      simp [collectCallsStep, List.elem_iff.mp hid, isLoopNode]
    · exact ih _ htail hid

/-- Every edge recorded by the sub-walk of one function has a callee contained
in the name list the membership test at source line 45 was run against. -/
theorem collectCalls_callee (names : List String) (n : Node) (e : Edge)
    (h : e ∈ collectCalls names n) : names.contains e.1 = true := by
  rcases collect_foldl_callee names (walk n) (false, []) e h with h2 | h2
  · cases h2
  · exact h2

/-- Every plain-name call in the sub-walk of a function whose target passes
the membership test gets an edge recorded (with whatever `in_loop` flag was
current). -/
theorem collectCalls_complete (names : List String) (id : String) (args : List Node)
    (n : Node) (hmem : (Node.call (Node.name id) args) ∈ walk n)
    (hid : names.contains id = true) :
    ∃ inl, (id, inl, args.map argDescriptor) ∈ collectCalls names n :=
  collect_foldl_complete names id args (walk n) (false, []) hmem hid

theorem analyzeStep_calls_fnDef (setOrder : List String → List String) (st : AnalysisResult)
    (nm : String) (ps : List String) (body : List Node) (k : String) :
    lookupEdges (analyzeStep setOrder st (Node.functionDef nm ps body)).function_calls k
      = lookupEdges st.function_calls k
        ++ (if nm = k
            then collectCalls (st.analysis ++ [nm]) (Node.functionDef nm ps body)
            else []) := by
  rw [show (analyzeStep setOrder st (Node.functionDef nm ps body)).function_calls
      = (collectCalls (st.analysis ++ [nm]) (Node.functionDef nm ps body)).foldl
          (fun m e => dictAppend m nm e) st.function_calls
    from rfl]
  exact lookupEdges_dictAppend_foldl _ _ _ _

theorem analyzeStep_calls_mono (setOrder : List String → List String) (st : AnalysisResult)
    (n : Node) (k : String) (e : Edge) (h : e ∈ lookupEdges st.function_calls k) :
    e ∈ lookupEdges (analyzeStep setOrder st n).function_calls k := by
  cases n <;> try exact h
  case functionDef nm ps body =>
    rw [analyzeStep_calls_fnDef]
    exact List.mem_append_left _ h

theorem foldl_calls_mono (setOrder : List String → List String) (l : List Node) :
    ∀ (st : AnalysisResult) (k : String) (e : Edge), e ∈ lookupEdges st.function_calls k →
      e ∈ lookupEdges (l.foldl (analyzeStep setOrder) st).function_calls k := by
  induction l with
  | nil => exact fun st k e h => h
  | cons n rest ih =>
    intro st k e h
    exact ih _ k e (analyzeStep_calls_mono setOrder st n k e h)

/-! ### The running state of the outer loop -/

theorem stateAt_succ (setOrder : List String → List String) (t : Node) (i : Nat)
    (hi : i < (walk t).length) :
    stateAt setOrder t (i + 1)
      = analyzeStep setOrder (stateAt setOrder t i) ((walk t).get ⟨i, hi⟩) := by
  unfold stateAt
  rw [List.take_succ, List.getElem?_eq_getElem hi, List.foldl_append]
  simp [List.get_eq_getElem]

/-! ### Serializer shape -/

theorem nodes_fold (function_details : List (String × FuncDetails)) (analysis : List String) :
    ∀ acc : String, (∀ nm ∈ analysis, (lookupKey function_details nm).isSome = true) →
      analysis.foldlM (fun acc2 func => (node_line function_details func).map (fun l => acc2 ++ l)) acc
        = Except.ok (acc ++ strConcat (analysis.map (node_line_total function_details))) := by
  induction analysis with
  | nil =>
    intro acc h
    simp [strConcat]
    rfl
  | cons nm rest ih =>
    intro acc h
    obtain ⟨d, hd⟩ := Option.isSome_iff_exists.mp (h nm (List.mem_cons_self nm rest))
    rw [List.foldlM_cons]
    rw [show node_line function_details nm = Except.ok (node_line_str d nm) from by
      simp [node_line, hd]]
    show rest.foldlM _ (acc ++ node_line_str d nm) = _
    rw [ih (acc ++ node_line_str d nm) (fun nm2 h2 => h nm2 (List.mem_cons_of_mem nm h2))]
    simp [strConcat, node_line_total, hd, String.append_assoc]

/-- When every listed name has a details record — as `analyze_ast` guarantees —
the node-declaration loop cannot raise, and the output is the header followed
by one node line per entry of `analysis`, in order, duplicates included. -/
theorem nodes_section_ok (function_details : List (String × FuncDetails))
    (analysis : List String)
    (h : ∀ nm ∈ analysis, (lookupKey function_details nm).isSome = true) :
    nodes_section function_details analysis
      = Except.ok ("```mermaid\ngraph TD;\n"
          ++ strConcat (analysis.map (node_line_total function_details))) :=
  nodes_fold function_details analysis "```mermaid\ngraph TD;\n" h

theorem lastFnDef_ne_none (nm : String) (l : List Node) (n : Node) (hn : n ∈ l)
    (h : isFnDefNamed nm n = true) : lastFnDef nm l ≠ none := by
  induction l with
  | nil => cases hn
  | cons m rest ih =>
    cases hrest : lastFnDef nm rest with
    | some k => simp [lastFnDef, hrest]
    | none =>
      rcases List.mem_cons.mp hn with heq | htail
      · subst heq
        simp [lastFnDef, hrest, h]
      · exact absurd hrest (ih htail)

/-- Every name `analyze_ast` appends to `analysis` also receives a
`function_details` record, so the serializer's dictionary access at source
line 58 cannot miss. -/
theorem analyze_details_isSome (setOrder : List String → List String) (t : Node) (nm : String)
    (h : nm ∈ (analyze_ast setOrder t).analysis) :
    (lookupKey (analyze_ast setOrder t).function_details nm).isSome = true := by
  rw [analyze_ast_analysis] at h
  obtain ⟨n, hn, hfn⟩ := List.mem_filterMap.mp h
  have hnamed : isFnDefNamed nm n = true := by
    cases n <;> simp [fnName] at hfn
    case functionDef nm2 ps body => simp [isFnDefNamed, hfn]
  rw [analyze_ast_details_lookup]
  cases hl : lastFnDef nm (walk t) with
  | some k => simp
  | none => exact absurd hl (lastFnDef_ne_none nm (walk t) n hn hnamed)

/-! ### Set-iteration-order (in)sensitivity -/

theorem funcDetailsOf_congr (setOrder1 setOrder2 : List String → List String)
    (h1 : ∀ l, (setOrder1 l).Perm l) (h2 : ∀ l, (setOrder2 l).Perm l)
    (n : Node) (hn : (returnCats n).length ≤ 1) :
    funcDetailsOf setOrder1 n = funcDetailsOf setOrder2 n := by
  cases n <;> try rfl
  case functionDef nm ps body =>
    cases hcats : returnCats (Node.functionDef nm ps body) with
    | nil => simp [funcDetailsOf, hcats]
    | cons a rest =>
      cases rest with
      | nil =>
        have e1 : setOrder1 [a] = [a] := List.perm_singleton.mp (h1 [a])
        have e2 : setOrder2 [a] = [a] := List.perm_singleton.mp (h2 [a])
        simp [funcDetailsOf, hcats, e1, e2]
      | cons b r2 =>
        rw [hcats] at hn
        simp only [List.length_cons] at hn
        omega

theorem analyzeStep_congr (setOrder1 setOrder2 : List String → List String)
    (h1 : ∀ l, (setOrder1 l).Perm l) (h2 : ∀ l, (setOrder2 l).Perm l)
    (st : AnalysisResult) (n : Node) (hn : fnCatsSmall n = true) :
    analyzeStep setOrder1 st n = analyzeStep setOrder2 st n := by
  cases n <;> try rfl
  case functionDef nm ps body =>
    have hlen : (returnCats (Node.functionDef nm ps body)).length ≤ 1 :=
      of_decide_eq_true (by simpa [fnCatsSmall] using hn)
    unfold analyzeStep
    rw [funcDetailsOf_congr setOrder1 setOrder2 h1 h2 _ hlen]

theorem foldl_congr (setOrder1 setOrder2 : List String → List String)
    (h1 : ∀ l, (setOrder1 l).Perm l) (h2 : ∀ l, (setOrder2 l).Perm l) (l : List Node) :
    ∀ st : AnalysisResult, (∀ n ∈ l, fnCatsSmall n = true) →
      l.foldl (analyzeStep setOrder1) st = l.foldl (analyzeStep setOrder2) st := by
  induction l with
  | nil => intro st h; rfl
  | cons n rest ih =>
    intro st h
    rw [List.foldl_cons, List.foldl_cons,
      analyzeStep_congr setOrder1 setOrder2 h1 h2 st n (h n (List.mem_cons_self n rest))]
    exact ih _ (fun n2 h2b => h n2 (List.mem_cons_of_mem n h2b))

/-- When every function definition has at most one distinct return category,
the analysis result does not depend on the set-iteration order at all. -/
theorem analyze_ast_congr (setOrder1 setOrder2 : List String → List String)
    (h1 : ∀ l, (setOrder1 l).Perm l) (h2 : ∀ l, (setOrder2 l).Perm l) (t : Node)
    (ht : retCatsSmall t = true) : analyze_ast setOrder1 t = analyze_ast setOrder2 t :=
  foldl_congr setOrder1 setOrder2 h1 h2 (walk t) _ (List.all_eq_true.mp ht)

/-! ### Claim theorems -/

/-- C1: the claim states that a call edge carries `in_loop` exactly when the
call site is lexically nested inside a loop within the caller's body, and
`calls` otherwise.  The code instead sets the `in_loop` flag when any loop
node is encountered in the breadth-first sub-walk and never resets it, so a
call that merely *follows* a loop is also labelled `in_loop`.  This theorem
evaluates the code at such an input: in `tree_loop_then_call` the call `g()`
is a sibling statement after the `for` loop, outside it, yet the recorded edge
has loop flag `true` and the emitted label is `in_loop`. -/
theorem spec_c1_code_behavior :
    lookupEdges (analyze_ast idOrder tree_loop_then_call).function_calls "f"
        = [("g", true, [])]
    ∧ pipelineE idOrder tree_loop_then_call
        = Except.ok "```mermaid\ngraph TD;\ng(g\\n\\nPARAMS: \\n\\nRETURNS: None\\n\\nDOC: None)\nf(f\\n\\nPARAMS: \\n\\nRETURNS: None\\n\\nDOC: None)\nf-->|\"in_loop params: \"|g;\n```" :=
  ⟨rfl, rfl⟩

set_option maxRecDepth 4000 in
/-- C2 (counterexample): serialization is *not* deterministic across runs.
The RETURNS field joins a Python `set` of strings, whose iteration order is
unspecified (string hashing is salted per process); two admissible iteration
orders of the same set yield different bytes on a function with two distinct
return categories. -/
theorem spec_c2_counterexample :
    ¬ (∀ setOrder1 setOrder2 : List String → List String,
        (∀ l, (setOrder1 l).Perm l) → (∀ l, (setOrder2 l).Perm l) →
        pipeline_doc setOrder1 tree_two_return_cats "example.py" "2024-01-01 00:00:00 UTC"
          = pipeline_doc setOrder2 tree_two_return_cats "example.py" "2024-01-01 00:00:00 UTC") := by
  intro h
  have h2 := h idOrder revOrder (fun l => List.Perm.refl l) (fun l => List.reverse_perm l)
  exact absurd h2 (by decide)

/-- C2 (amended): with the generation timestamp held fixed, two runs of the
pipeline produce byte-identical output *provided every function has at most
one distinct return category*; then the set-iteration order cannot influence
the RETURNS field and the rest of the pipeline is order-independent. -/
theorem spec_c2 (setOrder1 setOrder2 : List String → List String) (t : Node)
    (file_path current_time : String)
    (h1 : ∀ l, (setOrder1 l).Perm l) (h2 : ∀ l, (setOrder2 l).Perm l)
    (ht : retCatsSmall t = true) :
    pipeline_doc setOrder1 t file_path current_time
      = pipeline_doc setOrder2 t file_path current_time := by
  unfold pipeline_doc pipelineE
  rw [analyze_ast_congr setOrder1 setOrder2 h1 h2 t ht]

/-- C2 witness: the amended determinism theorem applied to the spec's concrete
helper/main example with two admissible set orders. -/
theorem spec_c2_witness :
    pipeline_doc idOrder tree_helper_main "example.py" "2024-01-01 00:00:00 UTC"
      = pipeline_doc revOrder tree_helper_main "example.py" "2024-01-01 00:00:00 UTC" :=
  spec_c2 idOrder revOrder tree_helper_main "example.py" "2024-01-01 00:00:00 UTC"
    (fun l => List.Perm.refl l) (fun l => List.reverse_perm l) rfl

/-- C3: the claim states that extraction followed by serialization never
raises, even for call arguments that are literals of any kind.  The code
records the *raw* constant value as the argument descriptor and later joins
the descriptors with `', '.join`, which raises `TypeError` on a non-string —
so `def g(): f(1)` crashes serialization.  This theorem evaluates the code at
that failing input: extraction records the integer descriptor, and the
pipeline raises instead of producing text. -/
theorem spec_c3_code_behavior :
    lookupEdges (analyze_ast idOrder tree_int_arg).function_calls "g"
        = [("f", false, [PyVal.int 1])]
    ∧ pipelineE idOrder tree_int_arg
        = Except.error "TypeError: sequence item: expected str instance" :=
  ⟨rfl, rfl⟩

/-- C4 (counterexample): redefining `f` yields *two* node declarations for
`f` in the serialized graph, not exactly one as the claim states. -/
theorem spec_c4_counterexample :
    (pipelineE idOrder tree_redefined).map (fun s => node_decl_count s "f") = Except.ok 2
    ∧ (pipelineE idOrder tree_redefined).map (fun s => node_decl_count s "f")
        ≠ Except.ok 1 :=
  ⟨rfl, by decide⟩

/-- C4 (amended): a later definition of the same name overwrites the metadata
recorded for that name (the stored record is that of the *last* definition in
walk order), but the name list keeps every definition occurrence and the
serializer emits one node declaration per occurrence — so a redefined name
yields one node declaration per definition, each carrying the overwritten
metadata, rather than exactly one declaration. -/
theorem spec_c4 (setOrder : List String → List String) (t : Node) (nm : String) :
    lookupKey (analyze_ast setOrder t).function_details nm
        = Option.map (funcDetailsOf setOrder) (lastFnDef nm (walk t))
    ∧ (analyze_ast setOrder t).analysis.count nm = ((walk t).filterMap fnName).count nm
    ∧ nodes_section (analyze_ast setOrder t).function_details (analyze_ast setOrder t).analysis
        = Except.ok ("```mermaid\ngraph TD;\n"
            ++ strConcat ((analyze_ast setOrder t).analysis.map
                 (node_line_total (analyze_ast setOrder t).function_details))) :=
  ⟨analyze_ast_details_lookup setOrder t nm,
   by rw [analyze_ast_analysis],
   nodes_section_ok _ _ (fun nm2 h => analyze_details_isSome setOrder t nm2 h)⟩

/-- C5: a call whose target is not contained in the running name list at the
moment the enclosing function definition is visited (the list of all function
names appended so far, plus the current function's own name) records no edge:
the edges-to-that-target of every caller are unchanged by this visit.  The
extractor is a total function, so no error is reported either. -/
theorem spec_c5 (setOrder : List String → List String) (t : Node) (i : Nat)
    (hi : i < (walk t).length) (nm : String) (ps : List String) (body : List Node)
    (c k : String)
    (hnode : (walk t).get ⟨i, hi⟩ = Node.functionDef nm ps body)
    (hc : c ∉ (stateAt setOrder t i).analysis ++ [nm]) :
    ((lookupEdges (stateAt setOrder t (i + 1)).function_calls k).filter (fun e => e.1 == c))
      = ((lookupEdges (stateAt setOrder t i).function_calls k).filter (fun e => e.1 == c)) := by
  rw [stateAt_succ setOrder t i hi, hnode, analyzeStep_calls_fnDef, List.filter_append]
  have hnil : ((if nm = k
      then collectCalls ((stateAt setOrder t i).analysis ++ [nm]) (Node.functionDef nm ps body)
      else []).filter (fun e => e.1 == c)) = [] := by
    apply List.filter_eq_nil_iff.mpr
    intro e he
    by_cases hk : nm = k
    · rw [if_pos hk] at he
      have hmem : e.1 ∈ (stateAt setOrder t i).analysis ++ [nm] :=
        List.elem_iff.mp (collectCalls_callee _ _ _ he)
      intro heq
      exact hc (eq_of_beq heq ▸ hmem)
    · rw [if_neg hk] at he
      cases he
  rw [hnil, List.append_nil]

/-- C5 witness: in `def f(): g()` with `g` undefined, visiting `f` (walk
position 1) records no edge to `g`. -/
theorem spec_c5_witness :
    ((lookupEdges (stateAt idOrder tree_unknown_callee 2).function_calls "f").filter
        (fun e => e.1 == "g"))
      = ((lookupEdges (stateAt idOrder tree_unknown_callee 1).function_calls "f").filter
        (fun e => e.1 == "g")) :=
  spec_c5 idOrder tree_unknown_callee 1 (by decide) "f" []
    [Node.exprStmt (Node.call (Node.name "g") [])] "g" "f" rfl (by decide)

/-- C6: for a function whose body contains no valued `return` statement (its
set of return categories is empty), the recorded return text is the fixed
sentinel `"None"` — never the empty string — and the serializer's RETURNS
field emits that same sentinel. -/
theorem spec_c6 (setOrder : List String → List String) (t : Node) (nm : String)
    (ps : List String) (body : List Node)
    (hlast : lastFnDef nm (walk t) = some (Node.functionDef nm ps body))
    (hnoret : returnCats (Node.functionDef nm ps body) = []) :
    lookupKey (analyze_ast setOrder t).function_details nm
        = some ⟨ps, "None", getDocstring body⟩
    ∧ returns_field ⟨ps, "None", getDocstring body⟩ = "None"
    ∧ ("None" : String) ≠ "" := by
  refine ⟨?_, by simp [returns_field], by decide⟩
  rw [analyze_ast_details_lookup, hlast]
  simp [funcDetailsOf, hnoret]

/-- C6 witness: `def f(): return` (a bare return) yields the sentinel. -/
theorem spec_c6_witness :
    lookupKey (analyze_ast idOrder tree_bare_return).function_details "f"
        = some ⟨[], "None", none⟩
    ∧ returns_field ⟨[], "None", none⟩ = "None"
    ∧ ("None" : String) ≠ "" :=
  spec_c6 idOrder tree_bare_return "f" [] [Node.ret none] rfl rfl

/-- C7: when validation fails (for any reason), `main` logs the validation
error and returns early: the run's outcome is the early exit and in
particular not a successful write, so the destination file is untouched and
nothing is raised. -/
theorem spec_c7 (setOrder : List String → List String) (file_exists : Bool) (parsed : Node)
    (current_time file_path output_path msg p c : String)
    (h : validate_file_path file_exists file_path = ValidationResult.err msg) :
    main setOrder file_exists parsed current_time file_path output_path
        = RunOutcome.earlyExit ("Validation failed: " ++ msg)
    ∧ main setOrder file_exists parsed current_time file_path output_path
        ≠ RunOutcome.success p c := by
  unfold main
  rw [h]
  exact ⟨rfl, by simp⟩

/-- C7 witness: a missing input file produces the early exit and no write. -/
theorem spec_c7_witness :
    main idOrder false (Node.module []) "2024-01-01 00:00:00 UTC" "missing.py" "output.md"
        = RunOutcome.earlyExit ("Validation failed: " ++ "File does not exist.")
    ∧ main idOrder false (Node.module []) "2024-01-01 00:00:00 UTC" "missing.py" "output.md"
        ≠ RunOutcome.success "output.md" "anything" :=
  spec_c7 idOrder false (Node.module []) "2024-01-01 00:00:00 UTC" "missing.py" "output.md"
    "File does not exist." "output.md" "anything" rfl

/-- C8: the validator fails with the not-found message exactly when nothing
exists at the path (regardless of suffix), fails with the
unsupported-kind message exactly when the path exists but does not end in
`.py`, and succeeds exactly in the remaining case. -/
theorem spec_c8 (file_exists : Bool) (file_path : String) :
    (validate_file_path file_exists file_path = ValidationResult.err "File does not exist."
        ↔ file_exists = false)
    ∧ (validate_file_path file_exists file_path = ValidationResult.err "Not a Python file."
        ↔ (file_exists = true ∧ pyEndsWith file_path ".py" = false))
    ∧ (validate_file_path file_exists file_path = ValidationResult.ok
        ↔ (file_exists = true ∧ pyEndsWith file_path ".py" = true)) := by
  cases file_exists <;> by_cases h : pyEndsWith file_path ".py"
    <;> simp [validate_file_path, h]

/-- C9: a function whose sub-walk contains a call to the function's own name
records a self-loop edge — the name is appended to the running list *before*
the body is sub-traversed, so the membership test succeeds and the edge list
recorded under that name contains an edge whose callee is the name itself. -/
theorem spec_c9 (setOrder : List String → List String) (t : Node) (nm : String)
    (ps : List String) (body : List Node) (args : List Node)
    (hf : Node.functionDef nm ps body ∈ walk t)
    (hcall : Node.call (Node.name nm) args ∈ walk (Node.functionDef nm ps body)) :
    (lookupEdges (analyze_ast setOrder t).function_calls nm).filter (fun e => e.1 == nm)
      ≠ [] := by
  obtain ⟨l1, l2, hsplit⟩ := List.append_of_mem hf
  have hnames : (((l1.foldl (analyzeStep setOrder) ⟨[], [], []⟩).analysis) ++ [nm]).contains nm
      = true :=
    List.elem_iff.mpr (List.mem_append_right _ (List.mem_singleton.mpr rfl))
  obtain ⟨inl, hedge⟩ := collectCalls_complete _ nm args _ hcall hnames
  have hstep : (nm, inl, args.map argDescriptor)
      ∈ lookupEdges (analyzeStep setOrder (l1.foldl (analyzeStep setOrder) ⟨[], [], []⟩)
          (Node.functionDef nm ps body)).function_calls nm := by
    rw [analyzeStep_calls_fnDef, if_pos rfl]
    exact List.mem_append_right _ hedge
  have hfinal : (nm, inl, args.map argDescriptor)
      ∈ lookupEdges (analyze_ast setOrder t).function_calls nm := by
    rw [analyze_ast, hsplit, List.foldl_append, List.foldl_cons]
    exact foldl_calls_mono setOrder l2 _ nm _ hstep
  intro hempty
  have hmem : (nm, inl, args.map argDescriptor)
      ∈ (lookupEdges (analyze_ast setOrder t).function_calls nm).filter
          (fun e => e.1 == nm) :=
    List.mem_filter.mpr ⟨hfinal, by simp⟩
  rw [hempty] at hmem
  cases hmem

/-- C9 witness: `def f(): f()` records a self-loop edge. -/
theorem spec_c9_witness :
    (lookupEdges (analyze_ast idOrder tree_self_call).function_calls "f").filter
        (fun e => e.1 == "f") ≠ [] :=
  spec_c9 idOrder tree_self_call "f" [] [Node.exprStmt (Node.call (Node.name "f") [])] []
    (by
      have h : (walk tree_self_call).get ⟨1, by decide⟩
          = Node.functionDef "f" [] [Node.exprStmt (Node.call (Node.name "f") [])] := rfl
      exact h ▸ List.get_mem _ _ _)
    (by
      have h : (walk (Node.functionDef "f" [] [Node.exprStmt (Node.call (Node.name "f") [])])).get
            ⟨2, by decide⟩
          = Node.call (Node.name "f") [] := rfl
      exact h ▸ List.get_mem _ _ _)

/-- C10: every function-definition node anywhere in the breadth-first walk —
nested definitions included — contributes its name to the ordered name list
(which is exactly the walk's `FunctionDef` names, in order, with
multiplicity), and the serializer emits one node declaration per entry of
that list. -/
theorem spec_c10 (setOrder : List String → List String) (t : Node) :
    (analyze_ast setOrder t).analysis = (walk t).filterMap fnName
    ∧ nodes_section (analyze_ast setOrder t).function_details (analyze_ast setOrder t).analysis
        = Except.ok ("```mermaid\ngraph TD;\n"
            ++ strConcat ((analyze_ast setOrder t).analysis.map
                 (node_line_total (analyze_ast setOrder t).function_details))) :=
  ⟨analyze_ast_analysis setOrder t,
   nodes_section_ok _ _ (fun nm h => analyze_details_isSome setOrder t nm h)⟩

end Mermaidomatic
